import Mathlib

/-!
# gotube: download-and-mux pipeline

A shallow embedding of the two front ends of the repository:

* `src/main.go` (the terminal front end): the controller `model.Update`, the
  progress-reporting reader `progressReader.Read`, and the background routine
  `model.runDownload` with `model.downloadSingle`;
* `src/gomusic-android/main.go` (the graphical front end): `App.downloadFile`,
  `extractVideoID` and `sanitizeFilename`.

Go strings are embedded as Lean strings (sequences of characters); every string
operation used by the program acts on ASCII characters only, so the character
view and the byte view agree.  Progress fractions (`float64` quotients of two
integers) are embedded as rationals.
-/

namespace GoTube

/-! ## Strings: `strings.ReplaceAll`, `strings.Contains` -/

/-- Left-to-right scan behind `strings.ReplaceAll` for a non-empty `old`: at a
position where `old` starts, emit `new` and skip the rest of `old`; elsewhere copy
the character.  The counter is the number of characters of a match still to skip. -/
def replaceFrom (old new : List Char) : Nat → List Char → List Char
  | _, [] => []
  | skip + 1, _ :: cs => replaceFrom old new skip cs
  | 0, c :: cs =>
    if old.isPrefixOf (c :: cs) then new ++ replaceFrom old new (old.length - 1) cs
    else c :: replaceFrom old new 0 cs

/-- Go `strings.ReplaceAll(s, old, new)` (non-overlapping, leftmost matches),
for a non-empty `old`. -/
def ReplaceAll (s old new : String) : String :=
  ⟨replaceFrom old.data new.data 0 s.data⟩

/-- Does `sub` start at some position of `s`? -/
def containsFrom (sub : List Char) : List Char → Bool
  | [] => sub.isPrefixOf []
  | c :: cs => sub.isPrefixOf (c :: cs) || containsFrom sub cs

/-- Go `strings.Contains(s, substr)`. -/
def Contains (s substr : String) : Bool :=
  containsFrom substr.data s.data

/-! ## `sanitizeFilename` (graphical front end) -/

/-- Embedding of `sanitizeFilename` of `src/gomusic-android/main.go`: nine
successive `strings.ReplaceAll` calls. -/
def sanitizeFilename (name : String) : String :=
  let name := ReplaceAll name "/" "_"
  let name := ReplaceAll name "\\" "_"
  let name := ReplaceAll name ":" "_"
  let name := ReplaceAll name "*" "_"
  let name := ReplaceAll name "?" "_"
  let name := ReplaceAll name "\"" "_"
  let name := ReplaceAll name "<" "_"
  let name := ReplaceAll name ">" "_"
  let name := ReplaceAll name "|" "_"
  name

/-- The nine characters named by the specification of `sanitize`; the character
with code 34 is the double quote. -/
def forbiddenChars : List Char :=
  ['/', '\\', ':', '*', '?', Char.ofNat 34, '<', '>', '|']

/-! ## Regular expressions: the fragment of Go `regexp` used by `extractVideoID` -/

/-- Abstract syntax of the regular expressions that occur in the program:
literals, character classes (lists of inclusive ranges), concatenation,
alternation and capturing groups.  Non-capturing groups are plain nesting. -/
inductive Regex where
  | empty : Regex
  | lit : Char → Regex
  | cls : List (Char × Char) → Regex
  | seq : Regex → Regex → Regex
  | alt : Regex → Regex → Regex
  | group : Regex → Regex

/-- Membership of a character in a class given by inclusive ranges. -/
def inClass (ranges : List (Char × Char)) (c : Char) : Bool :=
  ranges.any (fun r => decide (r.1 ≤ c) && decide (c ≤ r.2))

/-- The regular expression of a literal string. -/
def Regex.str : List Char → Regex
  | [] => .empty
  | c :: cs => .seq (.lit c) (Regex.str cs)

/-- Counted repetition `r{n}`. -/
def Regex.times (r : Regex) : Nat → Regex
  | 0 => .empty
  | n + 1 => .seq r (Regex.times r n)

/-- Backtracking matcher in continuation-passing style, with the leftmost-first
preference of Go `regexp`: in an alternation the first branch is tried first and
the second only when the first, followed by the rest of the pattern, fails.  A
capturing group appends the text it consumed to the list of captures. -/
def Regex.matchK {R : Type} :
    Regex → List Char → List (List Char) → (List Char → List (List Char) → Option R) → Option R
  | .empty, s, caps, k => k s caps
  | .lit c, s, caps, k =>
    match s with
    | d :: t => if d = c then k t caps else none
    | [] => none
  | .cls rs, s, caps, k =>
    match s with
    | d :: t => if inClass rs d then k t caps else none
    | [] => none
  | .seq a b, s, caps, k => a.matchK s caps (fun s1 caps1 => b.matchK s1 caps1 k)
  | .alt a b, s, caps, k =>
    match a.matchK s caps k with
    | some r => some r
    | none => b.matchK s caps k
  | .group a, s, caps, k =>
    a.matchK s caps (fun s1 caps1 => k s1 (caps1 ++ [s.take (s.length - s1.length)]))

/-- A match anchored at the start of `s`: the matched text followed by the
captured groups. -/
def Regex.matchAt (re : Regex) (s : List Char) : Option (List (List Char)) :=
  re.matchK s [] (fun rest caps => some (s.take (s.length - rest.length) :: caps))

/-- Go `(*Regexp).FindStringSubmatch`: the leftmost match, as the matched text
followed by the captured groups; `none` stands for the nil slice. -/
def FindStringSubmatch (re : Regex) : List Char → Option (List (List Char))
  | [] => re.matchAt []
  | c :: cs =>
    match re.matchAt (c :: cs) with
    | some m => some m
    | none => FindStringSubmatch re cs

/-! ## `extractVideoID` (graphical front end) -/

/-- The three path shapes of the pattern. -/
def pathShapes : List String :=
  ["youtube.com/watch?v=", "youtu.be/", "youtube.com/shorts/"]

/-- The class `[a-zA-Z0-9_-]`. -/
def idClass : List (Char × Char) :=
  [('a', 'z'), ('A', 'Z'), ('0', '9'), ('_', '_'), ('-', '-')]

/-- The pattern
`(?:youtube\.com/watch\?v=|youtu\.be/|youtube\.com/shorts/)([a-zA-Z0-9_-]{11})`. -/
def videoIDPattern : Regex :=
  .seq
    (.alt (Regex.str "youtube.com/watch?v=".data)
      (.alt (Regex.str "youtu.be/".data) (Regex.str "youtube.com/shorts/".data)))
    (.group (Regex.times (.cls idClass) 11))

/-- The loop `for _, pattern := range patterns` of `extractVideoID`. -/
def extractLoop : List Regex → List Char → String
  | [], _ => ""
  | re :: rest, url =>
    match FindStringSubmatch re url with
    | some (_ :: m1 :: _) => ⟨m1⟩
    | _ => extractLoop rest url

/-- Embedding of `extractVideoID` of `src/gomusic-android/main.go`. -/
def extractVideoID (url : String) : String :=
  extractLoop [videoIDPattern] url.data

/-! ## Data model (terminal front end) -/

/-- Errors are carried as their message text. -/
abbrev Error := String

/-- The fields of `youtube.AudioTrack` read by the program. -/
structure AudioTrack where
  DisplayName : String
  AudioIsDefault : Bool
deriving DecidableEq, Repr

/-- The fields of `youtube.Format` read by the program. -/
structure Format where
  MimeType : String
  QualityLabel : String
  AudioQuality : String
  AudioChannels : Int
  ContentLength : Int
  AudioTrack : Option AudioTrack
deriving DecidableEq, Repr

/-- The fields of `youtube.Video` read by the program. -/
structure Video where
  Title : String
  Formats : List Format
deriving DecidableEq, Repr

/-- The controller states, `type state int` with its seven constants. -/
inductive state where
  | stateFetching
  | stateSelectingVideo
  | stateSelectingAudio
  | stateDownloading
  | stateMerging
  | stateFinished
  | stateError
deriving DecidableEq, Repr

/-- The list entry `formatItem`.  Its `desc` field, a rendering of the mime type
and of the size in megabytes, is display text only and is left out. -/
structure formatItem where
  format : Format
  title : String
deriving DecidableEq, Repr

/-- The state of the list widget (`list.Model`) that the controller reads and
writes: the items, the cursor, the title and the size. -/
structure ListModel where
  items : List formatItem
  index : Nat
  Title : String
  width : Int
  height : Int
deriving DecidableEq, Repr

/-- The constructor `list.New(items, delegate, width, height)`. -/
def ListModel.New (items : List formatItem) (width height : Int) : ListModel :=
  { items := items, index := 0, Title := "List", width := width, height := height }

/-- The method `list.Model.SelectedItem`: the item under the cursor, or nil.  The
filtering of the widget is not modelled: the visible items are the items. -/
def ListModel.SelectedItem (l : ListModel) : Option formatItem :=
  l.items.get? l.index

/-- The method `list.Model.SetSize`. -/
def ListModel.SetSize (l : ListModel) (width height : Int) : ListModel :=
  { l with width := width, height := height }

/-- The messages handled by `model.Update`.  A key press carries the text of
`msg.String()`; `videoInfoFetchedMsg` carries the (non-nil) video that
`fetchVideoInfo` sends; `otherMsg` is a message of any other type. -/
inductive Msg where
  | KeyMsg (key : String)
  | TickMsg
  | videoInfoFetchedMsg (video : Video)
  | errMsg (err : Error)
  | downloadProgressMsg (p : ℚ)
  | mergingMsg
  | downloadDoneMsg (name : String)
  | FrameMsg
  | WindowSizeMsg (Width Height : Int)
  | otherMsg
deriving DecidableEq

/-- The command returned by `model.Update`: nil, `tea.Quit`, the batch of
`tea.Printf` (with the file name it prints) and `tea.Quit`, or a command produced
by one of the widgets. -/
inductive Cmd where
  | nil
  | Quit
  | printfQuit (fileName : String)
  | widget
deriving DecidableEq

/-- The controller `model`.  The spinner, and the animation state of the progress
bar, are display state and are left out; of the progress bar the value last
passed to `SetPercent` and the width are kept.  The field `program` is the handle
that `runDownload` sends messages through; its sends are the `Effect.Send`
entries of the trace of `runDownload`. -/
structure model where
  state : state
  videoURL : String
  video : Option Video
  list : ListModel
  progressSet : ℚ
  progressWidth : Int
  err : Option Error
  fileName : String
  quitting : Bool
  width : Int
  height : Int
  progressV : ℚ
  progressA : ℚ
  selectedVideo : Option Format
  selectedAudio : Option Format
deriving DecidableEq

/-- The model that `main` builds for a URL. -/
def model.initial (url : String) : model :=
  { state := .stateFetching, videoURL := url, video := none,
    list := ⟨[], 0, "", 0, 0⟩, progressSet := 0, progressWidth := 0,
    err := none, fileName := "", quitting := false, width := 0, height := 0,
    progressV := 0, progressA := 0, selectedVideo := none, selectedAudio := none }

/-- The result of one `Update` call: the new model, the command, and whether
`go m.runDownload()` was executed. -/
structure UpdateResult where
  m : model
  cmd : Cmd
  goRunDownload : Bool
deriving DecidableEq

/-! ## Option lists -/

/-- The method `FormatList.Type(value)` of the stream-provider library
(`github.com/kkdai/youtube/v2`), which filters by mime type: the formats whose
mime type contains `value`, in order. -/
def FormatsType (list : List Format) (value : String) : List Format :=
  list.filter (fun f => Contains f.MimeType value)

/-- Body of the loop of the `videoInfoFetchedMsg` case: the item appended for a
format, or `none` where the loop executes `continue`. -/
def videoItem (f : Format) : Option formatItem :=
  if f.AudioChannels = 0 ∧ f.MimeType ≠ "" ∧ Contains f.MimeType "video" = true then
    some { format := f,
           title := (if f.QualityLabel = "" then f.AudioQuality else f.QualityLabel)
                      ++ " â€¢ " ++ "HD (Needs Merge)" }
  else if f.QualityLabel = "" ∧ Contains f.MimeType "audio" = true then
    none
  else
    some { format := f,
           title := (if f.QualityLabel = "" then f.AudioQuality else f.QualityLabel)
                      ++ " â€¢ " ++ "Video+Audio" }

/-- Body of the loop of the `enter` case that builds the audio list. -/
def audioItem (f : Format) : formatItem :=
  let lang :=
    match f.AudioTrack with
    | some t => if t.DisplayName ≠ "" then t.DisplayName else "Original / Unknown"
    | none => "Original / Unknown"
  let title := lang ++ " â€¢ " ++ f.AudioQuality
  let title :=
    match f.AudioTrack with
    | some t => if t.AudioIsDefault then title ++ " (Default)" else title
    | none => title
  { format := f, title := title }

/-! ## The controller `model.Update` -/

/-- The code after the `switch` of `Update` (lines 347-353): in a selecting state
the message is forwarded to the list widget, whose own update is the parameter
`listUpdate`. -/
def Update.tail (listUpdate : Msg → ListModel → ListModel) (m : model) (msg : Msg) :
    UpdateResult :=
  if m.state = .stateSelectingVideo ∨ m.state = .stateSelectingAudio then
    ⟨{ m with list := listUpdate msg m.list }, .widget, false⟩
  else
    ⟨m, .nil, false⟩

/-- Embedding of `model.Update` of `src/main.go`.  The result is `none` where the
Go code dereferences a nil `m.video`. -/
def Update (listUpdate : Msg → ListModel → ListModel) (m : model) (msg : Msg) :
    Option UpdateResult :=
  match msg with
  | .KeyMsg key =>
    if key = "ctrl+c" ∨ key = "q" then
      some ⟨{ m with quitting := true }, .Quit, false⟩
    else if key = "enter" then
      if m.state = .stateSelectingVideo then
        match m.list.SelectedItem with
        | some item =>
          let m := { m with selectedVideo := some item.format }
          if item.format.AudioChannels = 0 ∧ Contains item.format.MimeType "video" = true then
            let m := { m with state := .stateSelectingAudio }
            match m.video with
            | none => none
            | some video =>
              let audioFormats := FormatsType video.Formats "audio"
              let items := audioFormats.map audioItem
              let l := ListModel.New items (m.width - 4) (m.height - 8)
              some ⟨{ m with list := { l with Title := "Select Audio Track" } }, .nil, false⟩
          else
            match m.video with
            | none => none
            | some video =>
              some ⟨{ m with state := .stateDownloading, fileName := video.Title }, .nil, true⟩
        | none => some (Update.tail listUpdate m (.KeyMsg key))
      else if m.state = .stateSelectingAudio then
        match m.list.SelectedItem with
        | some item =>
          match m.video with
          | none => none
          | some video =>
            some ⟨{ m with selectedAudio := some item.format, state := .stateDownloading,
                           fileName := video.Title }, .nil, true⟩
        | none => some (Update.tail listUpdate m (.KeyMsg key))
      else some (Update.tail listUpdate m (.KeyMsg key))
    else some (Update.tail listUpdate m (.KeyMsg key))
  | .TickMsg => some ⟨m, .widget, false⟩
  | .videoInfoFetchedMsg video =>
    let m := { m with video := some video, state := .stateSelectingVideo }
    let items := video.Formats.filterMap videoItem
    let l := ListModel.New items (m.width - 4) (m.height - 8)
    some ⟨{ m with list := { l with Title := "Select Video Quality" } }, .nil, false⟩
  | .errMsg e => some ⟨{ m with err := some e, state := .stateError }, .nil, false⟩
  | .downloadProgressMsg p => some ⟨{ m with progressSet := p }, .widget, false⟩
  | .mergingMsg => some ⟨{ m with state := .stateMerging }, .nil, false⟩
  | .downloadDoneMsg name =>
    some ⟨{ m with fileName := name, state := .stateFinished }, .printfQuit name, false⟩
  | .FrameMsg => some ⟨m, .widget, false⟩
  | .WindowSizeMsg w h =>
    let m := { m with width := w, height := h }
    let m :=
      if m.state = .stateSelectingVideo ∨ m.state = .stateSelectingAudio then
        { m with list := m.list.SetSize (w - 4) (h - 8) }
      else m
    let m := { m with progressWidth := w - 4 }
    some (Update.tail listUpdate m (.WindowSizeMsg w h))
  | .otherMsg => some (Update.tail listUpdate m .otherMsg)

/-! ## Transfers -/

/-- Wrap-around of `int64` arithmetic. -/
def wrapInt64 (x : Int) : Int :=
  (x + 2 ^ 63) % 2 ^ 64 - 2 ^ 63

/-- The error half of the result of a `Read`: nil, `io.EOF`, or another error. -/
inductive ReadErr where
  | nil
  | EOF
  | other (e : Error)
deriving DecidableEq, Repr

/-- The result `(n, err)` of one `Read` call on the source stream. -/
structure ReadResult where
  n : Int
  err : ReadErr
deriving DecidableEq, Repr

/-- The `progressReader` of `src/main.go` (its embedded reader is the source of
the `ReadResult`s). -/
structure progressReader where
  total : Int
  downloaded : Int
deriving DecidableEq, Repr

/-- Embedding of `progressReader.Read`: `underlying` is what `pr.Reader.Read(p)`
returned; `onProgress` is the callback, acting on the state `σ` it closes over. -/
def progressReader.Read {σ : Type} (pr : progressReader) (onProgress : ℚ → σ → σ)
    (underlying : ReadResult) (s : σ) : progressReader × σ × ReadResult :=
  let pr := { pr with downloaded := wrapInt64 (pr.downloaded + underlying.n) }
  let s := if pr.total > 0 then onProgress ((pr.downloaded : ℚ) / (pr.total : ℚ)) s else s
  (pr, s, underlying)

/-- What the environment does during one `downloadSingle` call: the result of
`client.GetStream` (an error, or the expected size), the error of `os.Create`
for a path,
the results of the `Read` calls that `io.Copy` makes on the source, and the error
that `io.Copy` returns. -/
structure Transfer where
  getStream : Except Error Int
  create : String → Option Error
  reads : List ReadResult
  copyErr : Option Error

/-- The `Read` calls of one `io.Copy(file, pr)`, in order. -/
def copyReads {σ : Type} (onProgress : ℚ → σ → σ) :
    List ReadResult → progressReader → σ → progressReader × σ
  | [], pr, s => (pr, s)
  | r :: rest, pr, s =>
    let out := pr.Read onProgress r s
    copyReads onProgress rest out.1 out.2.1

/-- Embedding of `model.downloadSingle`: the state that `onProgress` acts on after
the call, and the returned error. -/
def downloadSingle {σ : Type} (t : Transfer) (path : String) (onProgress : ℚ → σ → σ)
    (s : σ) : σ × Option Error :=
  match t.getStream with
  | .error e => (s, some e)
  | .ok size =>
    match t.create path with
    | some e => (s, some e)
    | none =>
      let pr : progressReader := { total := size, downloaded := 0 }
      ((copyReads onProgress t.reads pr s).2, t.copyErr)

/-- The observable effects of `runDownload`. -/
inductive Effect where
  | Send (msg : Msg)
  | Run (name : String) (args : List String)
  | Remove (path : String)
deriving DecidableEq

/-- What the environment does during one `runDownload`: the two transfers and the
result of `cmd.Run()`. -/
structure DownloadEnv where
  videoTransfer : Transfer
  audioTransfer : Transfer
  ffmpeg : Option Error

/-- The state that `runDownload` mutates: its `model` and the effects so far. -/
structure RunState where
  m : model
  trace : List Effect

/-- The call `m.program.Send(msg)`. -/
def RunState.Send (s : RunState) (msg : Msg) : RunState :=
  { s with trace := s.trace ++ [Effect.Send msg] }

/-- The file name computed at the top of `runDownload` (lines 126-127). -/
def runDownload.filename (title : String) : String :=
  let filename := ReplaceAll title "/" "_"
  let filename := ReplaceAll filename "\\" "_"
  filename

/-- The closure passed to `downloadSingle` for a combined download (lines 131-133). -/
def runDownload.onProgress (p : ℚ) (s : RunState) : RunState :=
  s.Send (.downloadProgressMsg p)

/-- The closure passed to `downloadSingle` for the video of a split download
(lines 146-149). -/
def runDownload.onProgressV (p : ℚ) (s : RunState) : RunState :=
  let s := { s with m := { s.m with progressV := p } }
  s.Send (.downloadProgressMsg ((s.m.progressV + s.m.progressA) / 2))

/-- The closure passed to `downloadSingle` for the audio of a split download
(lines 156-159). -/
def runDownload.onProgressA (p : ℚ) (s : RunState) : RunState :=
  let s := { s with m := { s.m with progressA := p } }
  s.Send (.downloadProgressMsg ((s.m.progressV + s.m.progressA) / 2))

/-- The arguments of the `ffmpeg` invocation of `runDownload` (line 168). -/
def runDownload.mergeArgs (videoFile audioFile finalFile : String) : List String :=
  ["-y", "-i", videoFile, "-i", audioFile, "-c", "copy", finalFile]

/-- Embedding of `model.runDownload` of `src/main.go`.  The result is `none` where
the Go code dereferences a nil `m.video`. -/
def runDownload (env : DownloadEnv) (m : model) : Option RunState :=
  match m.video with
  | none => none
  | some video =>
    let s : RunState := { m := m, trace := [] }
    let filename := runDownload.filename video.Title
    match m.selectedAudio with
    | none =>
      let out := downloadSingle env.videoTransfer (filename ++ ".mp4") runDownload.onProgress s
      match out.2 with
      | some e => some (out.1.Send (.errMsg e))
      | none =>
        let s := { out.1 with m := { out.1.m with fileName := filename ++ ".mp4" } }
        some (s.Send (.downloadDoneMsg s.m.fileName))
    | some _ =>
      let videoFile := filename ++ ".temp.mp4"
      let audioFile := filename ++ ".temp.m4a"
      let finalFile := filename ++ ".mp4"
      let outV := downloadSingle env.videoTransfer videoFile runDownload.onProgressV s
      match outV.2 with
      | some e => some (outV.1.Send (.errMsg e))
      | none =>
        let outA := downloadSingle env.audioTransfer audioFile runDownload.onProgressA outV.1
        match outA.2 with
        | some e => some (outA.1.Send (.errMsg e))
        | none =>
          let s := outA.1.Send .mergingMsg
          let s := { s with trace := s.trace ++
            [Effect.Run "ffmpeg" (runDownload.mergeArgs videoFile audioFile finalFile)] }
          match env.ffmpeg with
          | some e =>
            some (s.Send (.errMsg ("merging failed: " ++ e ++ " (is ffmpeg installed?)")))
          | none =>
            let s := { s with trace := s.trace ++ [Effect.Remove videoFile, Effect.Remove audioFile] }
            let s := { s with m := { s.m with fileName := finalFile } }
            some (s.Send (.downloadDoneMsg s.m.fileName))

/-! ## `App.downloadFile` (graphical front end) -/

/-- What `downloadFile` did: the returned error, the values passed to
`progressBar.SetValue` in order, and the number of `file.Write` calls. -/
structure FileResult where
  err : Option Error
  progress : List ℚ
  writeCalls : Nat
deriving DecidableEq

/-- The `for` loop of `downloadFile` over the results of the successive
`stream.Read` calls.  `writeErr k` is the error that the `k`-th `file.Write` call
returns; the code discards it.  The result is `none` when the listed reads end
without `io.EOF` or an error, where the loop would read on. -/
def downloadFile.loop (size : Int) (writeErr : Nat → Option Error) :
    List ReadResult → Int → FileResult → Option FileResult
  | [], _, _ => none
  | r :: rest, downloaded, acc =>
    let step : Int × FileResult :=
      if r.n > 0 then
        let _ignored := writeErr acc.writeCalls
        let downloaded := wrapInt64 (downloaded + r.n)
        let progress :=
          if size > 0 then acc.progress ++ [(downloaded : ℚ) / (size : ℚ)] else acc.progress
        (downloaded, { acc with progress := progress, writeCalls := acc.writeCalls + 1 })
      else (downloaded, acc)
    match r.err with
    | .EOF => some { step.2 with err := none }
    | .other e => some { step.2 with err := some e }
    | .nil => downloadFile.loop size writeErr rest step.1 step.2

/-- Embedding of `App.downloadFile` of `src/gomusic-android/main.go`: `getStream`
and `create` are the results of `client.GetStream` and `os.Create`, `reads` the
results of the successive `stream.Read` calls, `writeErr` the results of the
successive `file.Write` calls. -/
def downloadFile (getStream : Except Error Int) (create : String → Option Error)
    (reads : List ReadResult) (writeErr : Nat → Option Error) (path : String) :
    Option FileResult :=
  match getStream with
  | .error e => some ⟨some e, [], 0⟩
  | .ok size =>
    match create path with
    | some e => some ⟨some e, [], 0⟩
    | none => downloadFile.loop size writeErr reads 0 ⟨none, [], 0⟩

/-! ## Notions of the specification, and sample inputs -/

/-- Replacement of one character by an underscore. -/
def replaceChar (a : Char) (c : Char) : Char := if c = a then '_' else c

/-- The character map that the specification calls `sanitize`: each of the nine
forbidden characters becomes an underscore. -/
def sanitizeChar (c : Char) : Char :=
  if c ∈ forbiddenChars then '_' else c

/-- The classification "video-only" of the data model: zero audio channels and a
video mime type. -/
def isVideoOnly (f : Format) : Prop :=
  f.AudioChannels = 0 ∧ Contains f.MimeType "video" = true

/-- The classification "audio-only" of the data model: an audio mime type and an
empty quality label. -/
def isAudioOnly (f : Format) : Prop :=
  Contains f.MimeType "audio" = true ∧ f.QualityLabel = ""

instance (f : Format) : Decidable (isVideoOnly f) := by
  unfold isVideoOnly; infer_instance

instance (f : Format) : Decidable (isAudioOnly f) := by
  unfold isAudioOnly; infer_instance

/-- The audio-only representation of the scenario of the specification. -/
def audioOnlyFormat : Format :=
  { MimeType := "audio/mp4", QualityLabel := "", AudioQuality := "medium",
    AudioChannels := 2, ContentLength := 0, AudioTrack := none }

/-- The video-only representation of the scenario of the specification. -/
def videoOnlyFormat : Format :=
  { MimeType := "video/mp4", QualityLabel := "720p", AudioQuality := "",
    AudioChannels := 0, ContentLength := 0, AudioTrack := none }

/-- A representation with zero audio channels whose mime type contains both
"video" and "audio", and whose quality label is empty. -/
def mixedFormat : Format :=
  { MimeType := "video/x-audio", QualityLabel := "", AudioQuality := "",
    AudioChannels := 0, ContentLength := 0, AudioTrack := none }

/-- An audio representation that carries a quality label. -/
def labelledAudioFormat : Format :=
  { MimeType := "audio/webm", QualityLabel := "tiny", AudioQuality := "low",
    AudioChannels := 2, ContentLength := 0, AudioTrack := none }

/-- A model in `stateSelectingVideo` for a video, whose list shows the given
items with the cursor on the first. -/
def selectingModel (video : Video) (items : List formatItem) : model :=
  { model.initial "u" with
    state := .stateSelectingVideo, video := some video,
    list := ListModel.New items 0 0 }

/-- A model at the start of a download of a video with the given title. -/
def downloadingModel (title : String) (selectedAudio : Option Format) : model :=
  { model.initial "u" with
    state := .stateDownloading, video := some { Title := title, Formats := [] },
    selectedAudio := selectedAudio }

/-- A transfer in which everything succeeds: ten bytes, read in two chunks. -/
def okTransfer : Transfer :=
  { getStream := .ok 10, create := fun _ => none,
    reads := [⟨4, .nil⟩, ⟨6, .nil⟩, ⟨0, .EOF⟩], copyErr := none }

/-- A transfer succeeds for a path: the stream opens, the file is created and the
copy returns no error. -/
def Transfer.succeeds (t : Transfer) (path : String) : Prop :=
  (∃ size, t.getStream = .ok size) ∧ t.create path = none ∧ t.copyErr = none

/-- A trace that consists of progress events only. -/
def OnlyProgress (l : List Effect) : Prop :=
  ∀ x ∈ l, ∃ p, x = Effect.Send (.downloadProgressMsg p)

/-- The callback that records the reported fractions, in order. -/
def record (p : ℚ) (l : List ℚ) : List ℚ := l ++ [p]

/-- The outcome of trying one path shape at the start of `s`: the identifier
that follows it, when the shape is there and eleven class characters follow. -/
def idAfter (p s : List Char) : Option (List Char) :=
  if p.isPrefixOf s = true ∧ 11 ≤ (s.drop p.length).length ∧
      ((s.drop p.length).take 11).all (inClass idClass) = true
  then some ((s.drop p.length).take 11) else none

/-- The identifier found at the start of `s`, trying the three shapes in the
order of the pattern. -/
def idAt (s : List Char) : Option (List Char) :=
  match idAfter "youtube.com/watch?v=".data s with
  | some id => some id
  | none =>
    match idAfter "youtu.be/".data s with
    | some id => some id
    | none => idAfter "youtube.com/shorts/".data s

/-- The identifier of the leftmost position of `s` at which `idAt` succeeds. -/
def findId : List Char → Option (List Char)
  | [] => idAt []
  | c :: cs =>
    match idAt (c :: cs) with
    | some id => some id
    | none => findId cs

/-- An occurrence, at position `i` of `url`, of one of the three path shapes
followed by eleven identifier characters. -/
def occursAt (url : List Char) (i : Nat) (shape : String) : Prop :=
  shape ∈ pathShapes ∧ shape.data <+: url.drop i ∧
    11 ≤ (url.drop (i + shape.data.length)).length ∧
    ∀ c ∈ (url.drop (i + shape.data.length)).take 11, inClass idClass c = true

/-! ## Lemmas: strings -/

/-- Replacing one character by another is a character-wise map. -/
theorem replaceFrom_single (a b : Char) (s : List Char) :
    replaceFrom [a] [b] 0 s = s.map (fun c => if c = a then b else c) := by
  induction s with
  | nil => rfl
  | cons c cs ih =>
    by_cases h : c = a
    · subst h
      simp [replaceFrom, ih]
    · have h2 : ¬ a = c := fun e => h e.symm
      simp [replaceFrom, ih, h, h2]

/-- The characters of `ReplaceAll s old "_"` for a one-character `old`. -/
theorem ReplaceAll_single_data (s old : String) (a : Char) (ho : old.data = [a]) :
    (ReplaceAll s old "_").data = s.data.map (replaceChar a) := by
  have hn : ("_" : String).data = ['_'] := rfl
  simp only [ReplaceAll, ho, hn, replaceFrom_single]
  rfl

/-- The function `sanitizeFilename` maps `sanitizeChar` over the characters. -/
theorem sanitizeFilename_data (x : String) :
    (sanitizeFilename x).data = x.data.map sanitizeChar := by
  unfold sanitizeFilename
  simp only []
  rw [ReplaceAll_single_data _ "|" '|' rfl]
  rw [ReplaceAll_single_data _ ">" '>' rfl]
  rw [ReplaceAll_single_data _ "<" '<' rfl]
  rw [ReplaceAll_single_data _ "\"" (Char.ofNat 34) rfl]
  rw [ReplaceAll_single_data _ "?" '?' rfl]
  rw [ReplaceAll_single_data _ "*" '*' rfl]
  rw [ReplaceAll_single_data _ ":" ':' rfl]
  rw [ReplaceAll_single_data _ "\\" '\\' rfl]
  rw [ReplaceAll_single_data _ "/" '/' rfl]
  simp only [List.map_map]
  apply List.map_congr_left
  intro c _
  simp only [Function.comp]
  by_cases h : c ∈ forbiddenChars
  · simp only [forbiddenChars, List.mem_cons, List.mem_nil_iff, or_false] at h
    rcases h with h | h | h | h | h | h | h | h | h <;> subst h <;> decide
  · have h2 := h
    simp only [forbiddenChars, List.mem_cons, List.mem_nil_iff, or_false, not_or] at h2
    obtain ⟨h1, h2, h3, h4, h5, h6, h7, h8, h9⟩ := h2
    simp [sanitizeChar, replaceChar, h, h1, h2, h3, h4, h5, h6, h7, h8, h9]

/-- The image of `sanitizeChar` avoids the forbidden characters. -/
theorem sanitizeChar_not_forbidden (c : Char) : sanitizeChar c ∉ forbiddenChars := by
  unfold sanitizeChar
  split_ifs with h
  · decide
  · exact h

/-- The map `sanitizeChar` is idempotent. -/
theorem sanitizeChar_idem (c : Char) : sanitizeChar (sanitizeChar c) = sanitizeChar c := by
  have h := sanitizeChar_not_forbidden c
  show (if sanitizeChar c ∈ forbiddenChars then '_' else sanitizeChar c) = sanitizeChar c
  rw [if_neg h]

/-- The file name of `runDownload` replaces the two path separators only. -/
theorem runDownload_filename_data (title : String) :
    (runDownload.filename title).data =
      title.data.map (fun c => if c = '/' ∨ c = '\\' then '_' else c) := by
  unfold runDownload.filename
  simp only []
  rw [ReplaceAll_single_data _ "\\" '\\' rfl, ReplaceAll_single_data _ "/" '/' rfl,
    List.map_map]
  apply List.map_congr_left
  intro c _
  simp only [Function.comp, replaceChar]
  by_cases h1 : c = '/'
  · subst h1; decide
  · by_cases h2 : c = '\\'
    · subst h2; decide
    · simp [h1, h2]

/-! ## Claims on file names -/

/-- C7 (confirmed).  The function `sanitizeFilename` is idempotent, and its
output contains none of the nine forbidden characters. -/
theorem C7_sanitizeFilename_idempotent_clean (x : String) :
    sanitizeFilename (sanitizeFilename x) = sanitizeFilename x ∧
    ∀ c ∈ forbiddenChars, c ∉ (sanitizeFilename x).data := by
  constructor
  · apply String.ext
    rw [sanitizeFilename_data, sanitizeFilename_data, List.map_map]
    apply List.map_congr_left
    intro c _
    exact sanitizeChar_idem c
  · intro c hc hmem
    rw [sanitizeFilename_data] at hmem
    obtain ⟨d, _, hd⟩ := List.mem_map.1 hmem
    exact sanitizeChar_not_forbidden d (hd ▸ hc)

/-- C3 (the code departs from the claim).  For the title `a:b` and a combined
download in which the transfer succeeds, `runDownload` stores and announces the
file name `a:b.mp4`, whereas `sanitize(title) + ".mp4"` is `a_b.mp4`: the colon,
one of the nine forbidden characters, is kept. -/
theorem C3_runDownload_filename_unsanitized :
    (runDownload ⟨okTransfer, okTransfer, none⟩ (downloadingModel "a:b" none)).map
        (fun s => (s.m.fileName, s.trace.getLast?)) =
      some ("a:b.mp4", some (Effect.Send (.downloadDoneMsg "a:b.mp4"))) ∧
    sanitizeFilename "a:b" ++ ".mp4" = "a_b.mp4" ∧
    ':' ∈ ("a:b.mp4" : String).data ∧ ':' ∈ forbiddenChars := by
  refine ⟨?_, by decide, by decide, by decide⟩
  decide

/-! ## Lemmas: option lists -/

/-- An item built for the video list carries the format it was built from. -/
theorem videoItem_format (f : Format) (it : formatItem) (h : videoItem f = some it) :
    it.format = f := by
  unfold videoItem at h
  split_ifs at h <;> simp at h <;> simp [← h]

/-- A mime type that contains "video" is not empty. -/
theorem ne_empty_of_Contains_video (s : String) (h : Contains s "video" = true) : s ≠ "" := by
  intro e
  subst e
  revert h
  decide

/-- The loop skips exactly the representations that are audio-only and not
video-only. -/
theorem videoItem_eq_none_iff (f : Format) :
    videoItem f = none ↔ isAudioOnly f ∧ ¬ isVideoOnly f := by
  unfold videoItem isAudioOnly isVideoOnly
  by_cases h1 : f.AudioChannels = 0 ∧ f.MimeType ≠ "" ∧ Contains f.MimeType "video" = true
  · rw [if_pos h1]
    constructor
    · intro h
      exact Option.noConfusion h
    · intro h
      exact absurd ⟨h1.1, h1.2.2⟩ h.2
  · rw [if_neg h1]
    have h1b : ¬ (f.AudioChannels = 0 ∧ Contains f.MimeType "video" = true) := fun h =>
      h1 ⟨h.1, ne_empty_of_Contains_video _ h.2, h.2⟩
    by_cases h2 : f.QualityLabel = "" ∧ Contains f.MimeType "audio" = true
    · rw [if_pos h2]
      exact ⟨fun _ => ⟨⟨h2.2, h2.1⟩, h1b⟩, fun _ => rfl⟩
    · rw [if_neg h2]
      constructor
      · intro h
        exact Option.noConfusion h
      · intro h
        exact absurd ⟨h.1.2, h.1.1⟩ h2

/-! ## Claims on the controller -/

/-- C1 (counterexample).  From `stateFinished` an `errMsg` moves the controller to
`stateError`, and from `stateError` a `mergingMsg` moves it to `stateMerging`. -/
theorem C1_counterexample :
    (Update (fun _ l => l) { model.initial "u" with state := .stateFinished }
        (.errMsg "late")).map (fun r => r.m.state) = some state.stateError ∧
    (Update (fun _ l => l) { model.initial "u" with state := .stateError }
        .mergingMsg).map (fun r => r.m.state) = some state.stateMerging := by
  constructor <;> rfl

/-- C1 (amended).  In `stateError` or `stateFinished`, `Update` returns a model for
every message; the state is unchanged for a key press, a progress message, a
spinner tick, a progress-bar frame, a window resize and any other message type,
while `errMsg`, `mergingMsg`, `downloadDoneMsg` and `videoInfoFetchedMsg` set it
to `stateError`, `stateMerging`, `stateFinished` and `stateSelectingVideo`. -/
theorem C1_terminal_states_amended (listUpdate : Msg → ListModel → ListModel) (m : model)
    (msg : Msg) (h : m.state = .stateError ∨ m.state = .stateFinished) :
    ∃ r, Update listUpdate m msg = some r ∧
      r.m.state =
        (match msg with
          | .errMsg _ => state.stateError
          | .mergingMsg => state.stateMerging
          | .downloadDoneMsg _ => state.stateFinished
          | .videoInfoFetchedMsg _ => state.stateSelectingVideo
          | _ => m.state) := by
  have hv : m.state ≠ .stateSelectingVideo := by rcases h with h | h <;> simp [h]
  have ha : m.state ≠ .stateSelectingAudio := by rcases h with h | h <;> simp [h]
  cases msg <;> simp [Update, Update.tail, hv, ha]
  all_goals split_ifs <;> simp

/-- C1 (witness).  The amended statement at a finished model and the Enter key. -/
theorem C1_terminal_states_amended_witness :
    ∃ r, Update (fun _ l => l) { model.initial "u" with state := .stateFinished }
        (.KeyMsg "enter") = some r ∧ r.m.state = state.stateFinished :=
  C1_terminal_states_amended (fun _ l => l) { model.initial "u" with state := .stateFinished }
    (.KeyMsg "enter") (Or.inr rfl)

/-- C2 (the code departs from the claim).  For metadata whose only representation
is audio-only, the metadata-fetched event leaves the controller in
`stateSelectingVideo` with an empty option list and no error; and for every
metadata the event ends in `stateSelectingVideo` with the error field untouched,
the option list being empty exactly when every representation is skipped. -/
theorem C2_empty_options_enter_selection :
    (Update (fun _ l => l) (model.initial "u")
        (.videoInfoFetchedMsg { Title := "t", Formats := [audioOnlyFormat] })).map
      (fun r => (r.m.state, r.m.list.items, r.m.err)) =
      some (state.stateSelectingVideo, [], none) ∧
    (∀ (listUpdate : Msg → ListModel → ListModel) (m : model) (video : Video),
      ∃ r, Update listUpdate m (.videoInfoFetchedMsg video) = some r ∧
        r.m.state = state.stateSelectingVideo ∧ r.m.err = m.err ∧
        (r.m.list.items = [] ↔ ∀ f ∈ video.Formats, isAudioOnly f ∧ ¬ isVideoOnly f)) := by
  refine ⟨by decide, ?_⟩
  intro listUpdate m video
  refine ⟨_, rfl, rfl, rfl, ?_⟩
  simp only [ListModel.New]
  rw [List.filterMap_eq_nil_iff]
  constructor
  · intro h f hf
    exact (videoItem_eq_none_iff f).1 (h f hf)
  · intro h f hf
    exact (videoItem_eq_none_iff f).2 (h f hf)

/-- C5 (counterexample).  The representation `mixedFormat` has a mime type that
contains "audio" and an empty quality label, and is kept in the video list. -/
theorem C5_counterexample :
    (Update (fun _ l => l) (model.initial "u")
        (.videoInfoFetchedMsg { Title := "t", Formats := [mixedFormat] })).map
      (fun r => r.m.list.items.map (fun it => it.format)) = some [mixedFormat] ∧
    isAudioOnly mixedFormat := by
  decide

/-- C5 (amended).  The video option list built when metadata is fetched contains an
audio-only representation only when that representation is also video-only (zero
audio channels and a mime type that contains "video"); and the kept options are a
subsequence of the representation list. -/
theorem C5_video_options_amended (listUpdate : Msg → ListModel → ListModel) (m : model)
    (video : Video) :
    ∃ r, Update listUpdate m (.videoInfoFetchedMsg video) = some r ∧
      (∀ it ∈ r.m.list.items, isAudioOnly it.format → isVideoOnly it.format) ∧
      List.Sublist (r.m.list.items.map (fun it => it.format)) video.Formats := by
  refine ⟨_, rfl, ?_, ?_⟩
  · intro it hit ha
    simp only [ListModel.New] at hit
    obtain ⟨f, _, hf⟩ := List.mem_filterMap.1 hit
    have hfe := videoItem_format f it hf
    subst hfe
    by_contra hv
    have hnone : videoItem it.format = none := (videoItem_eq_none_iff _).2 ⟨ha, hv⟩
    rw [hnone] at hf
    exact Option.noConfusion hf
  · simp only [ListModel.New]
    induction video.Formats with
    | nil => simp
    | cons f fs ih =>
      rw [List.filterMap_cons]
      cases hf : videoItem f with
      | none => exact List.Sublist.cons _ ih
      | some it =>
        simp only [List.map_cons]
        rw [videoItem_format f it hf]
        exact List.Sublist.cons₂ _ ih

/-- C6 (counterexample).  After a video-only option is chosen, the audio list
contains `labelledAudioFormat`, whose quality label is not empty. -/
theorem C6_counterexample :
    (Update (fun _ l => l)
        (selectingModel { Title := "t", Formats := [videoOnlyFormat, labelledAudioFormat] }
          [{ format := videoOnlyFormat, title := "720p" }])
        (.KeyMsg "enter")).map
      (fun r => (r.m.state, r.m.list.items.map (fun it => it.format))) =
      some (state.stateSelectingAudio, [labelledAudioFormat]) ∧
    ¬ isAudioOnly labelledAudioFormat := by
  decide

/-- C6 (amended).  In `stateSelectingVideo` with a video-only option selected, the
Enter event yields `stateSelectingAudio`, and the resulting option list consists,
in metadata order, exactly of the representations whose mime type contains
"audio": every audio-only representation is included, and so is every other
representation with an audio mime type, whatever its quality label. -/
theorem C6_audio_options_amended (listUpdate : Msg → ListModel → ListModel) (m : model)
    (video : Video) (item : formatItem)
    (hs : m.state = .stateSelectingVideo) (hv : m.video = some video)
    (hsel : m.list.SelectedItem = some item) (hvo : isVideoOnly item.format) :
    ∃ r, Update listUpdate m (.KeyMsg "enter") = some r ∧
      r.m.state = state.stateSelectingAudio ∧
      r.m.list.items.map (fun it => it.format) =
        video.Formats.filter (fun f => Contains f.MimeType "audio") ∧
      (∀ f ∈ video.Formats, isAudioOnly f → f ∈ r.m.list.items.map (fun it => it.format)) ∧
      (∀ f ∈ r.m.list.items.map (fun it => it.format),
        f ∈ video.Formats ∧ Contains f.MimeType "audio" = true) := by
  have hitems : (List.map audioItem (FormatsType video.Formats "audio")).map
      (fun it => it.format) = video.Formats.filter (fun f => Contains f.MimeType "audio") := by
    rw [List.map_map]
    simp only [FormatsType]
    conv_rhs => rw [← List.map_id (List.filter _ _)]
    apply List.map_congr_left
    intro f _
    rfl
  have hcond : item.format.AudioChannels = 0 ∧ Contains item.format.MimeType "video" = true := hvo
  have hU : Update listUpdate m (.KeyMsg "enter") = some
      ⟨{ m with
          selectedVideo := some item.format, state := .stateSelectingAudio,
          list := { ListModel.New ((FormatsType video.Formats "audio").map audioItem)
                      (m.width - 4) (m.height - 8) with Title := "Select Audio Track" } },
        .nil, false⟩ := by
    simp [Update, hs, hsel, hv, hcond]
  refine ⟨_, hU, rfl, hitems, ?_, ?_⟩
  · intro f hf ha
    show f ∈ List.map (fun it => it.format) (List.map audioItem (FormatsType video.Formats "audio"))
    rw [hitems]
    exact List.mem_filter.2 ⟨hf, ha.1⟩
  · intro f hf
    have hf2 : f ∈ List.map (fun it => it.format)
        (List.map audioItem (FormatsType video.Formats "audio")) := hf
    rw [hitems] at hf2
    exact List.mem_filter.1 hf2

/-- C6 (witness).  The amended statement at the metadata of the scenario, with the
video-only option under the cursor. -/
theorem C6_audio_options_amended_witness :
    ∃ r, Update (fun _ l => l)
        (selectingModel { Title := "t", Formats := [videoOnlyFormat, audioOnlyFormat] }
          [{ format := videoOnlyFormat, title := "720p" }])
        (.KeyMsg "enter") = some r ∧
      r.m.state = state.stateSelectingAudio ∧
      r.m.list.items.map (fun it => it.format) = [audioOnlyFormat] :=
  let ⟨r, h1, h2, h3, _⟩ := C6_audio_options_amended (fun _ l => l)
    (selectingModel { Title := "t", Formats := [videoOnlyFormat, audioOnlyFormat] }
      [{ format := videoOnlyFormat, title := "720p" }])
    { Title := "t", Formats := [videoOnlyFormat, audioOnlyFormat] }
    { format := videoOnlyFormat, title := "720p" } rfl rfl rfl (by decide)
  ⟨r, h1, h2, h3.trans (by decide)⟩

/-! ## Lemmas: transfers -/

/-- Within the non-negative `int64` range the wrap-around is the identity. -/
theorem wrapInt64_of_range (x : Int) (h0 : 0 ≤ x) (h1 : x < 2 ^ 63) : wrapInt64 x = x := by
  unfold wrapInt64
  omega

/-- A callback that appends one progress event per call makes the reads of a copy
append progress events only. -/
theorem copyReads_trace (cb : ℚ → RunState → RunState)
    (hcb : ∀ p s, ∃ q, (cb p s).trace = s.trace ++ [Effect.Send (.downloadProgressMsg q)])
    (reads : List ReadResult) :
    ∀ (pr : progressReader) (s : RunState),
      ∃ pre, (copyReads cb reads pr s).2.trace = s.trace ++ pre ∧ OnlyProgress pre := by
  induction reads with
  | nil =>
    intro pr s
    exact ⟨[], by simp [copyReads], by intro x hx; cases hx⟩
  | cons r rest ih =>
    intro pr s
    simp only [copyReads, progressReader.Read]
    split_ifs with ht
    · obtain ⟨q, hq⟩ := hcb ((wrapInt64 (pr.downloaded + r.n) : ℚ) / (pr.total : ℚ)) s
      obtain ⟨pre, hpre, hop⟩ := ih { pr with downloaded := wrapInt64 (pr.downloaded + r.n) }
        (cb ((wrapInt64 (pr.downloaded + r.n) : ℚ) / (pr.total : ℚ)) s)
      refine ⟨Effect.Send (.downloadProgressMsg q) :: pre, ?_, ?_⟩
      · rw [hpre, hq]; simp
      · intro x hx
        rcases List.mem_cons.1 hx with h | h
        · exact ⟨q, h⟩
        · exact hop x h
    · exact ih _ s

/-- A call of `downloadSingle` with such a callback appends progress events only. -/
theorem downloadSingle_trace (t : Transfer) (path : String) (cb : ℚ → RunState → RunState)
    (hcb : ∀ p s, ∃ q, (cb p s).trace = s.trace ++ [Effect.Send (.downloadProgressMsg q)])
    (s : RunState) :
    ∃ pre, (downloadSingle t path cb s).1.trace = s.trace ++ pre ∧ OnlyProgress pre := by
  unfold downloadSingle
  cases t.getStream with
  | error e => exact ⟨[], by simp, by intro x hx; cases hx⟩
  | ok size =>
    cases t.create path with
    | some e => exact ⟨[], by simp, by intro x hx; cases hx⟩
    | none => exact copyReads_trace cb hcb t.reads _ s

/-- A transfer that succeeds makes `downloadSingle` return no error. -/
theorem downloadSingle_err (σ : Type) (t : Transfer) (path : String) (cb : ℚ → σ → σ) (s : σ)
    (h : t.succeeds path) : (downloadSingle t path cb s).2 = none := by
  obtain ⟨⟨size, h1⟩, h2, h3⟩ := h
  simp [downloadSingle, h1, h2, h3]

/-- With a non-positive expected size the reads never call the callback. -/
theorem copyReads_no_report (σ : Type) (cb : ℚ → σ → σ) (reads : List ReadResult) :
    ∀ (pr : progressReader) (s : σ), pr.total ≤ 0 → (copyReads cb reads pr s).2 = s := by
  induction reads with
  | nil => intro pr s _; rfl
  | cons r rest ih =>
    intro pr s h
    simp only [copyReads, progressReader.Read]
    have : ¬ pr.total > 0 := by omega
    rw [if_neg this]
    exact ih _ s h

/-- The bound on one reported fraction: it is not negative, and at most 1 when the
bytes read in total, `S`, do not exceed the expected size. -/
theorem fraction_bounds (d total S : Int) (ht : 0 < total) (hd : 0 ≤ d) (hS : d ≤ S) :
    0 ≤ (d : ℚ) / (total : ℚ) ∧ (S ≤ total → (d : ℚ) / (total : ℚ) ≤ 1) := by
  have h1 : (0 : ℚ) < (total : ℚ) := by exact_mod_cast ht
  have h2 : (0 : ℚ) ≤ (d : ℚ) := by exact_mod_cast hd
  refine ⟨div_nonneg h2 h1.le, fun hle => (div_le_one h1).2 ?_⟩
  exact_mod_cast (by omega : d ≤ total)

/-- While the byte count stays within `int64`, every recorded fraction is not
negative, and at most 1 when the bytes read in total do not exceed the expected
size. -/
theorem copyReads_fractions (reads : List ReadResult) :
    ∀ (pr : progressReader) (l : List ℚ) (S : Int), 0 < pr.total →
      0 ≤ pr.downloaded → (∀ r ∈ reads, 0 ≤ r.n) →
      pr.downloaded + (reads.map (fun r => r.n)).sum = S → S < 2 ^ 63 →
      (∀ p ∈ l, 0 ≤ p ∧ (S ≤ pr.total → p ≤ 1)) →
      ∀ p ∈ (copyReads record reads pr l).2, 0 ≤ p ∧ (S ≤ pr.total → p ≤ 1) := by
  induction reads with
  | nil => intro pr l S _ _ _ _ _ hl; simpa [copyReads] using hl
  | cons r rest ih =>
    intro pr l S ht hd hn hsum hS hl
    have hr : 0 ≤ r.n := hn r (List.mem_cons_self _ _)
    have hrest : 0 ≤ (rest.map (fun r => r.n)).sum := by
      apply List.sum_nonneg
      intro x hx
      obtain ⟨y, hy, rfl⟩ := List.mem_map.1 hx
      exact hn y (List.mem_cons_of_mem _ hy)
    simp only [List.map_cons, List.sum_cons] at hsum
    have hw : wrapInt64 (pr.downloaded + r.n) = pr.downloaded + r.n :=
      wrapInt64_of_range _ (by omega) (by omega)
    simp only [copyReads, progressReader.Read, hw]
    rw [if_pos ht]
    apply ih _ _ S
    · exact ht
    · show 0 ≤ pr.downloaded + r.n
      omega
    · intro x hx
      exact hn x (List.mem_cons_of_mem _ hx)
    · show pr.downloaded + r.n + _ = S
      omega
    · exact hS
    · intro p hp
      simp only [record, List.mem_append, List.mem_singleton] at hp
      rcases hp with hp | hp
      · exact hl p hp
      · subst hp
        exact fraction_bounds (pr.downloaded + r.n) pr.total S ht (by omega) (by omega)

/-- While the byte count stays within `int64`, every value that the loop of
`downloadFile` reports is not negative, and at most 1 when the bytes read in total
do not exceed the expected size. -/
theorem loop_fractions (size : Int) (writeErr : Nat → Option Error) (reads : List ReadResult) :
    ∀ (downloaded : Int) (acc res : FileResult) (S : Int), 0 < size →
      0 ≤ downloaded → (∀ r ∈ reads, 0 ≤ r.n) →
      downloaded + (reads.map (fun r => r.n)).sum = S → S < 2 ^ 63 →
      (∀ p ∈ acc.progress, 0 ≤ p ∧ (S ≤ size → p ≤ 1)) →
      downloadFile.loop size writeErr reads downloaded acc = some res →
      ∀ p ∈ res.progress, 0 ≤ p ∧ (S ≤ size → p ≤ 1) := by
  induction reads with
  | nil => intro d acc res S _ _ _ _ _ _ h; simp [downloadFile.loop] at h
  | cons r rest ih =>
    intro d acc res S ht hd hn hsum hS hl h
    have hr : 0 ≤ r.n := hn r (List.mem_cons_self _ _)
    have hrest : 0 ≤ (rest.map (fun r => r.n)).sum := by
      apply List.sum_nonneg
      intro x hx
      obtain ⟨y, hy, rfl⟩ := List.mem_map.1 hx
      exact hn y (List.mem_cons_of_mem _ hy)
    simp only [List.map_cons, List.sum_cons] at hsum
    have hw : wrapInt64 (d + r.n) = d + r.n :=
      wrapInt64_of_range _ (by omega) (by omega)
    have hnew : ∀ p ∈ acc.progress ++ [((d + r.n : Int) : ℚ) / (size : ℚ)],
        0 ≤ p ∧ (S ≤ size → p ≤ 1) := by
      intro p hp
      simp only [List.mem_append, List.mem_singleton] at hp
      rcases hp with hp | hp
      · exact hl p hp
      · subst hp
        exact fraction_bounds (d + r.n) size S ht (by omega) (by omega)
    have hn2 : ∀ x ∈ rest, 0 ≤ x.n := fun x hx => hn x (List.mem_cons_of_mem _ hx)
    simp only [downloadFile.loop, hw, if_pos ht] at h
    by_cases hpos : r.n > 0
    · simp only [if_pos hpos] at h
      cases he : r.err with
      | EOF =>
        simp only [he, Option.some.injEq] at h
        subst h
        exact hnew
      | other e =>
        simp only [he, Option.some.injEq] at h
        subst h
        exact hnew
      | nil =>
        simp only [he] at h
        exact ih (d + r.n) _ res S ht (by omega) hn2 (by omega) hS hnew h
    · simp only [if_neg hpos] at h
      cases he : r.err with
      | EOF =>
        simp only [he, Option.some.injEq] at h
        subst h
        exact hl
      | other e =>
        simp only [he, Option.some.injEq] at h
        subst h
        exact hl
      | nil =>
        simp only [he] at h
        exact ih d _ res S ht hd hn2 (by omega) hS hl h

/-- With a non-positive expected size the loop of `downloadFile` reports nothing. -/
theorem loop_no_report (size : Int) (writeErr : Nat → Option Error) (reads : List ReadResult)
    (hs : size ≤ 0) :
    ∀ (downloaded : Int) (acc res : FileResult),
      downloadFile.loop size writeErr reads downloaded acc = some res →
      res.progress = acc.progress := by
  have hns : ¬ size > 0 := by omega
  induction reads with
  | nil => intro d acc res h; simp [downloadFile.loop] at h
  | cons r rest ih =>
    intro d acc res h
    simp only [downloadFile.loop, if_neg hns] at h
    by_cases hpos : r.n > 0
    · simp only [if_pos hpos] at h
      cases he : r.err with
      | EOF => simp only [he, Option.some.injEq] at h; subst h; rfl
      | other e => simp only [he, Option.some.injEq] at h; subst h; rfl
      | nil =>
        simp only [he] at h
        have h2 := ih _ _ res h
        simpa using h2
    · simp only [if_neg hpos] at h
      cases he : r.err with
      | EOF => simp only [he, Option.some.injEq] at h; subst h; rfl
      | other e => simp only [he, Option.some.injEq] at h; subst h; rfl
      | nil =>
        simp only [he] at h
        have h2 := ih _ _ res h
        simpa using h2

/-! ## Claims on `runDownload` -/

/-- The video callback appends one progress event. -/
theorem onProgressV_trace (p : ℚ) (s : RunState) :
    ∃ q, (runDownload.onProgressV p s).trace = s.trace ++ [Effect.Send (.downloadProgressMsg q)] :=
  ⟨_, rfl⟩

/-- The audio callback appends one progress event. -/
theorem onProgressA_trace (p : ℚ) (s : RunState) :
    ∃ q, (runDownload.onProgressA p s).trace = s.trace ++ [Effect.Send (.downloadProgressMsg q)] :=
  ⟨_, rfl⟩

/-- A trace of progress events removes no file. -/
theorem OnlyProgress.no_remove {l : List Effect} (h : OnlyProgress l) (p : String) :
    Effect.Remove p ∉ l := by
  intro hp
  obtain ⟨q, hq⟩ := h _ hp
  exact Effect.noConfusion hq

/-- A trace of progress events holds no download-done event. -/
theorem OnlyProgress.no_done {l : List Effect} (h : OnlyProgress l) (n : String) :
    Effect.Send (.downloadDoneMsg n) ∉ l := by
  intro hn
  obtain ⟨q, hq⟩ := h _ hn
  injection hq with hq
  exact Msg.noConfusion hq

/-- The trace of a split download in which both transfers succeed. -/
theorem runDownload_split_trace (env : DownloadEnv) (m : model) (video : Video) (audio : Format)
    (hv : m.video = some video) (ha : m.selectedAudio = some audio)
    (hV : env.videoTransfer.succeeds (runDownload.filename video.Title ++ ".temp.mp4"))
    (hA : env.audioTransfer.succeeds (runDownload.filename video.Title ++ ".temp.m4a")) :
    ∃ s pre, runDownload env m = some s ∧ OnlyProgress pre ∧
      (∀ e, env.ffmpeg = some e →
        s.trace = pre ++
          [Effect.Send .mergingMsg,
           Effect.Run "ffmpeg" ["-y", "-i", runDownload.filename video.Title ++ ".temp.mp4",
             "-i", runDownload.filename video.Title ++ ".temp.m4a", "-c", "copy",
             runDownload.filename video.Title ++ ".mp4"],
           Effect.Send (.errMsg ("merging failed: " ++ e ++ " (is ffmpeg installed?)"))] ∧
        (∀ p, Effect.Remove p ∉ s.trace) ∧
        (∀ n, Effect.Send (.downloadDoneMsg n) ∉ s.trace)) ∧
      (env.ffmpeg = none →
        s.trace = pre ++
          [Effect.Send .mergingMsg,
           Effect.Run "ffmpeg" ["-y", "-i", runDownload.filename video.Title ++ ".temp.mp4",
             "-i", runDownload.filename video.Title ++ ".temp.m4a", "-c", "copy",
             runDownload.filename video.Title ++ ".mp4"],
           Effect.Remove (runDownload.filename video.Title ++ ".temp.mp4"),
           Effect.Remove (runDownload.filename video.Title ++ ".temp.m4a"),
           Effect.Send (.downloadDoneMsg (runDownload.filename video.Title ++ ".mp4"))]) := by
  obtain ⟨pre1, h1, hp1⟩ := downloadSingle_trace env.videoTransfer
    (runDownload.filename video.Title ++ ".temp.mp4") _ onProgressV_trace { m := m, trace := [] }
  have e1 := downloadSingle_err RunState env.videoTransfer
    (runDownload.filename video.Title ++ ".temp.mp4") runDownload.onProgressV
    { m := m, trace := [] } hV
  obtain ⟨pre2, h2, hp2⟩ := downloadSingle_trace env.audioTransfer
    (runDownload.filename video.Title ++ ".temp.m4a") _ onProgressA_trace
    (downloadSingle env.videoTransfer (runDownload.filename video.Title ++ ".temp.mp4")
      runDownload.onProgressV { m := m, trace := [] }).1
  have e2 := downloadSingle_err RunState env.audioTransfer
    (runDownload.filename video.Title ++ ".temp.m4a") runDownload.onProgressA
    (downloadSingle env.videoTransfer (runDownload.filename video.Title ++ ".temp.mp4")
      runDownload.onProgressV { m := m, trace := [] }).1 hA
  have hpre : OnlyProgress (pre1 ++ pre2) := by
    intro x hx
    rcases List.mem_append.1 hx with h | h
    · exact hp1 x h
    · exact hp2 x h
  simp only [List.nil_append] at h1
  rw [h1] at h2
  cases hf : env.ffmpeg with
  | some e =>
    have hrun : ∃ s, runDownload env m = some s ∧ s.trace = pre1 ++ pre2 ++
        [Effect.Send .mergingMsg,
         Effect.Run "ffmpeg" ["-y", "-i", runDownload.filename video.Title ++ ".temp.mp4",
           "-i", runDownload.filename video.Title ++ ".temp.m4a", "-c", "copy",
           runDownload.filename video.Title ++ ".mp4"],
         Effect.Send (.errMsg ("merging failed: " ++ e ++ " (is ffmpeg installed?)"))] := by
      simp only [runDownload, hv, ha, e1, e2, hf]
      exact ⟨_, rfl, by simp [RunState.Send, h2, runDownload.mergeArgs]⟩
    obtain ⟨s, hs, htr⟩ := hrun
    have hnr : ∀ p, Effect.Remove p ∉ s.trace := by
      intro p hp
      rw [htr] at hp
      rcases List.mem_append.1 hp with hp | hp
      · exact hpre.no_remove p hp
      · simp at hp
    refine ⟨s, pre1 ++ pre2, hs, hpre, ?_, ?_⟩
    · intro e' he'
      injection he' with he'
      subst he'
      refine ⟨htr, hnr, ?_⟩
      intro n hn
      rw [htr] at hn
      rcases List.mem_append.1 hn with hn | hn
      · exact hpre.no_done n hn
      · simp at hn
    · intro h; exact Option.noConfusion h
  | none =>
    have hrun : ∃ s, runDownload env m = some s ∧ s.trace = pre1 ++ pre2 ++
        [Effect.Send .mergingMsg,
         Effect.Run "ffmpeg" ["-y", "-i", runDownload.filename video.Title ++ ".temp.mp4",
           "-i", runDownload.filename video.Title ++ ".temp.m4a", "-c", "copy",
           runDownload.filename video.Title ++ ".mp4"],
         Effect.Remove (runDownload.filename video.Title ++ ".temp.mp4"),
         Effect.Remove (runDownload.filename video.Title ++ ".temp.m4a"),
         Effect.Send (.downloadDoneMsg (runDownload.filename video.Title ++ ".mp4"))] := by
      simp only [runDownload, hv, ha, e1, e2, hf]
      exact ⟨_, rfl, by simp [RunState.Send, h2, runDownload.mergeArgs]⟩
    obtain ⟨s, hs, htr⟩ := hrun
    refine ⟨s, pre1 ++ pre2, hs, hpre, ?_, ?_⟩
    · intro e' he'
      exact Option.noConfusion he'
    · intro _
      exact htr

/-- The callback of a combined download appends one progress event. -/
theorem onProgress_trace (p : ℚ) (s : RunState) :
    ∃ q, (runDownload.onProgress p s).trace = s.trace ++ [Effect.Send (.downloadProgressMsg q)] :=
  ⟨_, rfl⟩

/-- A trace of progress events followed by one sent message removes no file. -/
theorem no_remove_append_send (pre : List Effect) (msg : Msg) (p : String)
    (h : OnlyProgress pre) : Effect.Remove p ∉ pre ++ [Effect.Send msg] := by
  intro hp
  rcases List.mem_append.1 hp with hp | hp
  · exact h.no_remove p hp
  · simp at hp

/-- In every run of `runDownload`, a file is removed only after the tool was run
and succeeded. -/
theorem runDownload_remove_only_on_success (env : DownloadEnv) (m : model) (s : RunState)
    (p : String) (hrun : runDownload env m = some s) (hp : Effect.Remove p ∈ s.trace) :
    env.ffmpeg = none ∧ ∃ args, Effect.Run "ffmpeg" args ∈ s.trace := by
  unfold runDownload at hrun
  cases hv : m.video with
  | none => simp [hv] at hrun
  | some video =>
    simp only [hv] at hrun
    cases ha : m.selectedAudio with
    | none =>
      simp only [ha] at hrun
      obtain ⟨pre, h1, hp1⟩ := downloadSingle_trace env.videoTransfer
        (runDownload.filename video.Title ++ ".mp4") _ onProgress_trace { m := m, trace := [] }
      simp only [List.nil_append] at h1
      cases he : (downloadSingle env.videoTransfer (runDownload.filename video.Title ++ ".mp4")
          runDownload.onProgress { m := m, trace := [] }).2 with
      | some e =>
        simp only [he, Option.some.injEq] at hrun
        subst hrun
        simp only [RunState.Send, h1] at hp
        exact absurd hp (no_remove_append_send pre _ p hp1)
      | none =>
        simp only [he, Option.some.injEq] at hrun
        subst hrun
        simp only [RunState.Send, h1] at hp
        exact absurd hp (no_remove_append_send pre _ p hp1)
    | some audio =>
      simp only [ha] at hrun
      obtain ⟨pre1, h1, hp1⟩ := downloadSingle_trace env.videoTransfer
        (runDownload.filename video.Title ++ ".temp.mp4") _ onProgressV_trace
        { m := m, trace := [] }
      simp only [List.nil_append] at h1
      cases he1 : (downloadSingle env.videoTransfer
          (runDownload.filename video.Title ++ ".temp.mp4")
          runDownload.onProgressV { m := m, trace := [] }).2 with
      | some e =>
        simp only [he1, Option.some.injEq] at hrun
        subst hrun
        simp only [RunState.Send, h1] at hp
        exact absurd hp (no_remove_append_send pre1 _ p hp1)
      | none =>
        simp only [he1] at hrun
        obtain ⟨pre2, h2, hp2⟩ := downloadSingle_trace env.audioTransfer
          (runDownload.filename video.Title ++ ".temp.m4a") _ onProgressA_trace
          (downloadSingle env.videoTransfer (runDownload.filename video.Title ++ ".temp.mp4")
            runDownload.onProgressV { m := m, trace := [] }).1
        rw [h1] at h2
        have hpre : OnlyProgress (pre1 ++ pre2) := by
          intro x hx
          rcases List.mem_append.1 hx with h | h
          · exact hp1 x h
          · exact hp2 x h
        cases he2 : (downloadSingle env.audioTransfer
            (runDownload.filename video.Title ++ ".temp.m4a") runDownload.onProgressA
            (downloadSingle env.videoTransfer (runDownload.filename video.Title ++ ".temp.mp4")
              runDownload.onProgressV { m := m, trace := [] }).1).2 with
        | some e =>
          simp only [he2, Option.some.injEq] at hrun
          subst hrun
          simp only [RunState.Send, h2] at hp
          exact absurd hp (no_remove_append_send _ _ p hpre)
        | none =>
          simp only [he2] at hrun
          cases hf : env.ffmpeg with
          | some e =>
            simp only [hf, Option.some.injEq] at hrun
            subst hrun
            simp only [RunState.Send, h2] at hp
            exfalso
            rcases List.mem_append.1 hp with hp | hp
            · rcases List.mem_append.1 hp with hp | hp
              · exact no_remove_append_send _ _ p hpre hp
              · simp at hp
            · simp at hp
          | none =>
            simp only [hf, Option.some.injEq] at hrun
            subst hrun
            refine ⟨rfl, runDownload.mergeArgs (runDownload.filename video.Title ++ ".temp.mp4")
              (runDownload.filename video.Title ++ ".temp.m4a")
              (runDownload.filename video.Title ++ ".mp4"), ?_⟩
            simp [RunState.Send]

/-- C9 (confirmed).  In the split-download path of `runDownload`, when both
transfers succeed, the effects are progress events followed by the merging event
and the run of the tool; when the tool fails they end with an error event, no file
is removed and no download-done event is emitted; when the tool succeeds the two
intermediate files are removed and the download-done event follows.  And in every
run of `runDownload`, a file is removed only after the tool was run and
succeeded. -/
theorem C9_merge_failure (env : DownloadEnv) (m : model) :
    (∀ (video : Video) (audio : Format),
      m.video = some video → m.selectedAudio = some audio →
      env.videoTransfer.succeeds (runDownload.filename video.Title ++ ".temp.mp4") →
      env.audioTransfer.succeeds (runDownload.filename video.Title ++ ".temp.m4a") →
      ∃ s pre, runDownload env m = some s ∧ OnlyProgress pre ∧
        (∀ e, env.ffmpeg = some e →
          s.trace = pre ++
            [Effect.Send .mergingMsg,
             Effect.Run "ffmpeg" ["-y", "-i", runDownload.filename video.Title ++ ".temp.mp4",
               "-i", runDownload.filename video.Title ++ ".temp.m4a", "-c", "copy",
               runDownload.filename video.Title ++ ".mp4"],
             Effect.Send (.errMsg ("merging failed: " ++ e ++ " (is ffmpeg installed?)"))] ∧
          (∀ p, Effect.Remove p ∉ s.trace) ∧
          (∀ n, Effect.Send (.downloadDoneMsg n) ∉ s.trace)) ∧
        (env.ffmpeg = none →
          s.trace = pre ++
            [Effect.Send .mergingMsg,
             Effect.Run "ffmpeg" ["-y", "-i", runDownload.filename video.Title ++ ".temp.mp4",
               "-i", runDownload.filename video.Title ++ ".temp.m4a", "-c", "copy",
               runDownload.filename video.Title ++ ".mp4"],
             Effect.Remove (runDownload.filename video.Title ++ ".temp.mp4"),
             Effect.Remove (runDownload.filename video.Title ++ ".temp.m4a"),
             Effect.Send (.downloadDoneMsg (runDownload.filename video.Title ++ ".mp4"))])) ∧
    (∀ (s : RunState) (p : String), runDownload env m = some s → Effect.Remove p ∈ s.trace →
      env.ffmpeg = none ∧ ∃ args, Effect.Run "ffmpeg" args ∈ s.trace) :=
  ⟨fun video audio hv ha hV hA => runDownload_split_trace env m video audio hv ha hV hA,
   fun s p hrun hp => runDownload_remove_only_on_success env m s p hrun hp⟩

/-- C9 (witness).  The statement at a split download in which both transfers
succeed and the tool exits with status 1. -/
theorem C9_merge_failure_witness :
    ∃ s, runDownload ⟨okTransfer, okTransfer, some "exit status 1"⟩
        (downloadingModel "clip" (some audioOnlyFormat)) = some s ∧
      (∀ p, Effect.Remove p ∉ s.trace) ∧ (∀ n, Effect.Send (.downloadDoneMsg n) ∉ s.trace) :=
  let ⟨s, _, hs, _, hfail, _⟩ :=
    (C9_merge_failure ⟨okTransfer, okTransfer, some "exit status 1"⟩
      (downloadingModel "clip" (some audioOnlyFormat))).1 { Title := "clip", Formats := [] }
      audioOnlyFormat rfl rfl ⟨⟨10, rfl⟩, rfl, rfl⟩ ⟨⟨10, rfl⟩, rfl, rfl⟩
  ⟨s, hs, (hfail "exit status 1" rfl).2⟩

/-! ## Claims on the progress fraction and on `downloadFile` -/

/-- C10 (counterexample).  With expected size 10 and a first chunk of 20 bytes,
both transfers report the fraction 2. -/
theorem C10_counterexample :
    (downloadSingle { getStream := .ok 10, create := fun _ => none,
                      reads := [⟨20, .nil⟩, ⟨0, .EOF⟩], copyErr := none }
        "video.mp4" record []) = ([2, 2], none) ∧
    (downloadFile (.ok 10) (fun _ => none) [⟨20, .nil⟩, ⟨0, .EOF⟩] (fun _ => none)
        "temp_audio").map (fun r => r.progress) = some [2] := by
  constructor
  · norm_num [downloadSingle, copyReads, progressReader.Read, record, wrapInt64]
  · norm_num [downloadFile, downloadFile.loop, wrapInt64]

/-- C10 (amended).  For a transfer with expected size `size`: when `size` is
positive, every chunk length is non-negative and the byte count stays within
`int64`, every fraction reported by `downloadSingle` through `onProgress`, and by
`downloadFile` to the progress bar, is at least 0, and it is at most 1 provided
that the bytes read in total do not exceed `size`; when `size` is not positive, no
fraction is reported: `downloadSingle` leaves the state of the callback (the
stored fraction included) untouched, and `downloadFile` reports nothing. -/
theorem C10_progress_fraction_amended (t : Transfer) (path : String) (size : Int)
    (create : String → Option Error) (writeErr : Nat → Option Error)
    (hs : t.getStream = .ok size) :
    (0 < size → (∀ r ∈ t.reads, 0 ≤ r.n) → (t.reads.map (fun r => r.n)).sum < 2 ^ 63 →
      (∀ p ∈ (downloadSingle t path record []).1,
        0 ≤ p ∧ ((t.reads.map (fun r => r.n)).sum ≤ size → p ≤ 1)) ∧
      (∀ res, downloadFile (.ok size) create t.reads writeErr path = some res →
        ∀ p ∈ res.progress,
          0 ≤ p ∧ ((t.reads.map (fun r => r.n)).sum ≤ size → p ≤ 1))) ∧
    (size ≤ 0 →
      (∀ (σ : Type) (onProgress : ℚ → σ → σ) (s : σ),
        (downloadSingle t path onProgress s).1 = s) ∧
      (∀ res, downloadFile (.ok size) create t.reads writeErr path = some res →
        res.progress = [])) := by
  constructor
  · intro h0 hn hsum
    constructor
    · unfold downloadSingle
      rw [hs]
      cases t.create path with
      | some e => intro p hp; cases hp
      | none =>
        exact copyReads_fractions t.reads ⟨size, 0⟩ [] _ h0 (le_refl _) hn (zero_add _) hsum
          (by intro p hp; cases hp)
    · intro res hres
      unfold downloadFile at hres
      cases hc : create path with
      | some e =>
        simp only [hc, Option.some.injEq] at hres
        subst hres
        intro p hp; cases hp
      | none =>
        simp only [hc] at hres
        exact loop_fractions size writeErr t.reads 0 _ res _ h0 (le_refl _) hn
          (zero_add _) hsum (by intro p hp; cases hp) hres
  · intro h0
    constructor
    · intro σ cb s
      unfold downloadSingle
      rw [hs]
      cases t.create path with
      | some e => rfl
      | none => exact copyReads_no_report σ cb t.reads _ s h0
    · intro res hres
      unfold downloadFile at hres
      cases hc : create path with
      | some e =>
        simp only [hc, Option.some.injEq] at hres
        subst hres
        rfl
      | none =>
        simp only [hc] at hres
        exact loop_no_report size writeErr t.reads h0 0 _ res hres

/-- C10 (witness).  The amended statement at a transfer of ten bytes read in two
chunks, with expected size 10. -/
theorem C10_progress_fraction_amended_witness :
    okTransfer.getStream = .ok 10 ∧
    (∀ p ∈ (downloadSingle okTransfer "clip.mp4" record []).1, 0 ≤ p ∧ p ≤ 1) :=
  ⟨rfl, fun p hp =>
    let h := ((C10_progress_fraction_amended okTransfer "clip.mp4" 10 (fun _ => none)
      (fun _ => none) rfl).1 (by decide) (by decide) (by decide)).1 p hp
    ⟨h.1, h.2 (by decide)⟩⟩

/-- C4 (the code departs from the claim).  With a destination whose every write
fails, `downloadFile` makes one `Write` call for the chunk read and returns nil;
and in general its result does not depend on the outcomes of the writes. -/
theorem C4_downloadFile_write_error_unreported :
    (downloadFile (.ok 5) (fun _ => none) [⟨5, .nil⟩, ⟨0, .EOF⟩]
        (fun _ => some "no space left on device") "temp_audio").map
      (fun r => (r.err, r.writeCalls)) = some (none, 1) ∧
    (∀ (getStream : Except Error Int) (create : String → Option Error)
        (reads : List ReadResult) (w1 w2 : Nat → Option Error) (path : String),
      downloadFile getStream create reads w1 path =
        downloadFile getStream create reads w2 path) := by
  constructor
  · decide
  · intro g c reads w1 w2 path
    unfold downloadFile
    cases g with
    | error e => rfl
    | ok size =>
      cases c path with
      | some e => rfl
      | none =>
        simp only []
        generalize (0 : Int) = d
        generalize (⟨none, [], 0⟩ : FileResult) = acc
        induction reads generalizing d acc with
        | nil => rfl
        | cons r rest ih =>
          simp only [downloadFile.loop]
          cases r.err with
          | nil => exact ih _ _
          | EOF => rfl
          | other e => rfl

/-! ## Lemmas: the matcher on the pattern of `extractVideoID` -/

/-- Matching a literal string tests for a prefix and continues after it. -/
theorem matchK_str {R : Type} (p : List Char) :
    ∀ (s : List Char) (caps : List (List Char)) (k : List Char → List (List Char) → Option R),
      (Regex.str p).matchK s caps k =
        if p.isPrefixOf s = true then k (s.drop p.length) caps else none := by
  induction p with
  | nil => intro s caps k; simp [Regex.str, Regex.matchK]
  | cons c cs ih =>
    intro s caps k
    cases s with
    | nil => simp [Regex.str, Regex.matchK]
    | cons d t =>
      simp only [Regex.str, Regex.matchK, ih]
      by_cases h : d = c
      · subst h
        simp
      · have h2 : ¬ c = d := fun e => h e.symm
        simp [h, h2]

/-- Matching `n` repetitions of a class tests the next `n` characters and continues
after them. -/
theorem matchK_times_cls {R : Type} (rs : List (Char × Char)) (n : Nat) :
    ∀ (s : List Char) (caps : List (List Char)) (k : List Char → List (List Char) → Option R),
      (Regex.times (.cls rs) n).matchK s caps k =
        if n ≤ s.length ∧ (s.take n).all (inClass rs) = true then k (s.drop n) caps else none := by
  induction n with
  | zero => intro s caps k; simp [Regex.times, Regex.matchK]
  | succ n ih =>
    intro s caps k
    cases s with
    | nil => simp [Regex.times, Regex.matchK]
    | cons d t =>
      simp only [Regex.times, Regex.matchK, ih]
      by_cases h : inClass rs d = true
      · simp [h]
      · simp [h]

/-- Unfolding of the matcher on a capturing group. -/
theorem matchK_group {R : Type} (a : Regex) (s : List Char) (caps : List (List Char))
    (k : List Char → List (List Char) → Option R) :
    (Regex.group a).matchK s caps k =
      a.matchK s caps (fun s1 caps1 => k s1 (caps1 ++ [s.take (s.length - s1.length)])) := rfl

/-- Unfolding of the matcher on a concatenation. -/
theorem matchK_seq {R : Type} (a b : Regex) (s : List Char) (caps : List (List Char))
    (k : List Char → List (List Char) → Option R) :
    (Regex.seq a b).matchK s caps k =
      a.matchK s caps (fun s1 caps1 => b.matchK s1 caps1 k) := rfl

/-- Unfolding of the matcher on an alternation. -/
theorem matchK_alt {R : Type} (a b : Regex) (s : List Char) (caps : List (List Char))
    (k : List Char → List (List Char) → Option R) :
    (Regex.alt a b).matchK s caps k =
      match a.matchK s caps k with
      | some r => some r
      | none => b.matchK s caps k := rfl

/-- One branch of the pattern, followed by the group: it succeeds exactly when
`idAfter` does, and captures the identifier. -/
theorem matchK_shape (p s : List Char) :
    (Regex.str p).matchK s []
      (fun s1 caps1 => (Regex.group (Regex.times (.cls idClass) 11)).matchK s1 caps1
        (fun rest caps => some (s.take (s.length - rest.length) :: caps))) =
    (idAfter p s).map (fun id => [s.take (s.length - (s.length - p.length - 11)), id]) := by
  rw [matchK_str]
  unfold idAfter
  by_cases hp : p.isPrefixOf s = true
  · simp only [hp, if_true, true_and, matchK_group, matchK_times_cls]
    by_cases h : 11 ≤ (List.drop p.length s).length ∧
        (List.take 11 (List.drop p.length s)).all (inClass idClass) = true
    · rw [if_pos h, if_pos h]
      have h11 := h.1
      simp only [Option.map_some', List.nil_append, List.length_drop]
      have : (List.drop p.length s).length - ((List.drop p.length s).length - 11) = 11 := by omega
      rw [List.length_drop] at this
      rw [this]
    · rw [if_neg h, if_neg h]
      rfl
  · simp [hp]

/-- The anchored match of the pattern captures what `idAt` finds. -/
theorem matchAt_pattern (s : List Char) :
    (videoIDPattern.matchAt s).map (fun m => m.drop 1) = (idAt s).map (fun id => [id]) := by
  unfold Regex.matchAt videoIDPattern idAt
  rw [matchK_seq, matchK_alt, matchK_alt, matchK_shape, matchK_shape, matchK_shape]
  cases idAfter "youtube.com/watch?v=".data s with
  | some id => simp
  | none =>
    cases idAfter "youtu.be/".data s with
    | some id => simp
    | none =>
      cases idAfter "youtube.com/shorts/".data s with
      | some id => simp
      | none => simp

/-- The leftmost match of the pattern captures what `findId` finds. -/
theorem FindStringSubmatch_pattern (s : List Char) :
    (FindStringSubmatch videoIDPattern s).map (fun m => m.drop 1) =
      (findId s).map (fun id => [id]) := by
  induction s with
  | nil => exact matchAt_pattern []
  | cons c cs ih =>
    have h := matchAt_pattern (c :: cs)
    unfold FindStringSubmatch findId
    cases hm : videoIDPattern.matchAt (c :: cs) with
    | some m =>
      rw [hm] at h
      cases hi : idAt (c :: cs) with
      | some id => rw [hi] at h; simpa using h
      | none => rw [hi] at h; simp at h
    | none =>
      rw [hm] at h
      cases hi : idAt (c :: cs) with
      | some id => rw [hi] at h; simp at h
      | none => simpa using ih

/-- The function `extractVideoID` returns what `findId` finds, or the empty string. -/
theorem extractVideoID_eq (url : String) :
    extractVideoID url = match findId url.data with
      | some id => ⟨id⟩
      | none => "" := by
  have h := FindStringSubmatch_pattern url.data
  unfold extractVideoID
  cases hf : FindStringSubmatch videoIDPattern url.data with
  | none =>
    rw [hf] at h
    cases hi : findId url.data with
    | some id => rw [hi] at h; simp at h
    | none => simp [extractLoop, hf]
  | some m =>
    rw [hf] at h
    cases hi : findId url.data with
    | none => rw [hi] at h; simp at h
    | some id =>
      rw [hi] at h
      simp only [Option.map_some', Option.some.injEq] at h
      match m, h with
      | [], h => simp at h
      | [_], h => simp at h
      | _ :: m1 :: rest, h =>
        simp only [List.drop_succ_cons, List.drop_zero, List.cons.injEq] at h
        simp [extractLoop, hf, h.1]

/-- What a successful `idAfter` returns. -/
theorem idAfter_some (p s id : List Char) (h : idAfter p s = some id) :
    p.isPrefixOf s = true ∧ id = (s.drop p.length).take 11 ∧ id.length = 11 ∧
      ∀ c ∈ id, inClass idClass c = true := by
  unfold idAfter at h
  split_ifs at h with hc
  injection h with h
  subst h
  refine ⟨hc.1, rfl, ?_, ?_⟩
  · rw [List.length_take]; omega
  · exact List.all_eq_true.1 hc.2.2

/-- An identifier found by `idAt` has eleven characters of the class. -/
theorem idAt_some (s id : List Char) (h : idAt s = some id) :
    id.length = 11 ∧ ∀ c ∈ id, inClass idClass c = true := by
  unfold idAt at h
  cases h1 : idAfter "youtube.com/watch?v=".data s with
  | some a =>
    rw [h1] at h
    injection h with h
    subst h
    exact (idAfter_some _ _ _ h1).2.2
  | none =>
    rw [h1] at h
    cases h2 : idAfter "youtu.be/".data s with
    | some a =>
      rw [h2] at h
      injection h with h
      subst h
      exact (idAfter_some _ _ _ h2).2.2
    | none =>
      rw [h2] at h
      exact (idAfter_some _ _ _ h).2.2

/-- An identifier found by `findId` is found by `idAt` at a leftmost position. -/
theorem findId_some (s id : List Char) (h : findId s = some id) :
    ∃ i, idAt (s.drop i) = some id ∧ ∀ j < i, idAt (s.drop j) = none := by
  induction s with
  | nil => exact ⟨0, h, fun j hj => absurd hj (Nat.not_lt_zero j)⟩
  | cons c cs ih =>
    unfold findId at h
    cases hi : idAt (c :: cs) with
    | some a =>
      rw [hi] at h
      injection h with h
      subst h
      exact ⟨0, hi, fun j hj => absurd hj (Nat.not_lt_zero j)⟩
    | none =>
      rw [hi] at h
      obtain ⟨i, h1, h2⟩ := ih h
      refine ⟨i + 1, h1, ?_⟩
      intro j hj
      cases j with
      | zero => exact hi
      | succ j => exact h2 j (by omega)

/-- The search `findId` returns the identifier at the leftmost successful position. -/
theorem findId_of_leftmost (s : List Char) :
    ∀ (i : Nat) (id : List Char), idAt (s.drop i) = some id →
      (∀ j < i, idAt (s.drop j) = none) → findId s = some id := by
  induction s with
  | nil =>
    intro i id h _
    simpa [findId] using h
  | cons c cs ih =>
    intro i id h hl
    cases i with
    | zero =>
      have h0 : idAt (c :: cs) = some id := h
      simp [findId, h0]
    | succ i =>
      have h0 : idAt (c :: cs) = none := hl 0 (Nat.succ_pos i)
      have : findId cs = some id :=
        ih i id h (fun j hj => hl (j + 1) (by omega))
      simp [findId, h0, this]

/-- The search `findId` fails when `idAt` fails at every position. -/
theorem findId_none (s : List Char) (h : ∀ i, idAt (s.drop i) = none) : findId s = none := by
  induction s with
  | nil => exact h 0
  | cons c cs ih =>
    have h0 : idAt (c :: cs) = none := h 0
    have : findId cs = none := ih (fun i => h (i + 1))
    simp [findId, h0, this]

/-- At an occurrence of a shape, `idAfter` for that shape returns the eleven
characters after it. -/
theorem idAfter_of_occursAt (url : List Char) (i : Nat) (shape : String)
    (h : occursAt url i shape) :
    idAfter shape.data (url.drop i) = some ((url.drop (i + shape.data.length)).take 11) := by
  obtain ⟨_, hp, hl, hc⟩ := h
  have hd : List.drop shape.data.length (List.drop i url) = List.drop (i + shape.data.length) url := by
    rw [List.drop_drop]
  unfold idAfter
  rw [hd, if_pos]
  exact ⟨List.isPrefixOf_iff_prefix.2 hp, hl, List.all_eq_true.2 hc⟩

/-- A successful `idAfter` for a shape is an occurrence of it. -/
theorem occursAt_of_idAfter (url : List Char) (i : Nat) (shape : String) (id : List Char)
    (hs : shape ∈ pathShapes) (h : idAfter shape.data (url.drop i) = some id) :
    occursAt url i shape := by
  have hd : List.drop shape.data.length (List.drop i url) = List.drop (i + shape.data.length) url := by
    rw [List.drop_drop]
  unfold idAfter at h
  split_ifs at h with hc
  rw [hd] at hc
  exact ⟨hs, List.isPrefixOf_iff_prefix.1 hc.1, hc.2.1, List.all_eq_true.1 hc.2.2⟩

/-- A prefix determines the first characters. -/
theorem take_of_isPrefixOf (p s : List Char) (n : Nat) (h : p.isPrefixOf s = true)
    (hn : n ≤ p.length) : s.take n = p.take n := by
  obtain ⟨t, rfl⟩ := List.isPrefixOf_iff_prefix.1 h
  rw [List.take_append_of_le_length hn]

/-- Two shapes that differ within their first `n` characters do not both start a
string. -/
theorem idAfter_none_of_other (p q s : List Char) (n : Nat) (hp : p.isPrefixOf s = true)
    (hnp : n ≤ p.length) (hnq : n ≤ q.length) (hne : p.take n ≠ q.take n) :
    idAfter q s = none := by
  unfold idAfter
  rw [if_neg]
  intro hc
  exact hne ((take_of_isPrefixOf p s n hp hnp).symm.trans (take_of_isPrefixOf q s n hc.1 hnq))

/-- At an occurrence of a shape, `idAt` returns the eleven characters after it:
no two shapes start at the same position. -/
theorem idAt_of_occursAt (url : List Char) (i : Nat) (shape : String)
    (h : occursAt url i shape) :
    idAt (url.drop i) = some ((url.drop (i + shape.data.length)).take 11) := by
  have hid := idAfter_of_occursAt url i shape h
  have hp := (idAfter_some _ _ _ hid).1
  have hs := h.1
  simp only [pathShapes, List.mem_cons, List.mem_singleton, List.mem_nil_iff, or_false] at hs
  unfold idAt
  rcases hs with hs | hs | hs
  · subst hs
    rw [hid]
  · subst hs
    rw [idAfter_none_of_other "youtu.be/".data "youtube.com/watch?v=".data _ 6 hp
      (by decide) (by decide) (by decide)]
    simp only []
    rw [hid]
  · subst hs
    rw [idAfter_none_of_other "youtube.com/shorts/".data "youtube.com/watch?v=".data _ 13 hp
      (by decide) (by decide) (by decide)]
    simp only []
    rw [idAfter_none_of_other "youtube.com/shorts/".data "youtu.be/".data _ 6 hp
      (by decide) (by decide) (by decide)]
    simp only []
    exact hid

/-- Where no shape occurs, `idAt` fails. -/
theorem idAt_none_of_no_occurrence (url : List Char) (i : Nat)
    (h : ∀ shape, ¬ occursAt url i shape) : idAt (url.drop i) = none := by
  have key : ∀ shape ∈ pathShapes, idAfter shape.data (url.drop i) = none := by
    intro shape hs
    cases hi : idAfter shape.data (url.drop i) with
    | none => rfl
    | some id => exact absurd (occursAt_of_idAfter url i shape id hs hi) (h shape)
  unfold idAt
  rw [key "youtube.com/watch?v=" (by decide)]
  simp only []
  rw [key "youtu.be/" (by decide)]
  simp only []
  exact key "youtube.com/shorts/" (by decide)

/-! ## Claim on `extractVideoID` -/

/-- C8 (confirmed).  The function `extractVideoID` returns the eleven characters that
follow the leftmost occurrence of one of the three path shapes followed by eleven
characters of `[a-zA-Z0-9_-]`; it returns the empty string when there is no such
occurrence; every result has length 0 or 11 and consists of characters of the class;
and the two examples of the specification evaluate as stated. -/
theorem C8_extractVideoID (url : String) :
    (∀ i shape, occursAt url.data i shape → (∀ j < i, ∀ sh, ¬ occursAt url.data j sh) →
        (extractVideoID url).data = (url.data.drop (i + shape.data.length)).take 11) ∧
    ((∀ i shape, ¬ occursAt url.data i shape) → extractVideoID url = "") ∧
    ((extractVideoID url).data.length = 0 ∨ (extractVideoID url).data.length = 11) ∧
    (∀ c ∈ (extractVideoID url).data, inClass idClass c = true) ∧
    extractVideoID "https://youtu.be/dQw4w9WgXcQ" = "dQw4w9WgXcQ" ∧
    extractVideoID "https://example.com/x" = "" := by
  refine ⟨?_, ?_, ?_, ?_, by decide, by decide⟩
  · intro i shape hocc hleft
    have h1 := idAt_of_occursAt url.data i shape hocc
    have h2 : ∀ j < i, idAt (url.data.drop j) = none := fun j hj =>
      idAt_none_of_no_occurrence url.data j (hleft j hj)
    rw [extractVideoID_eq, findId_of_leftmost url.data i _ h1 h2]
  · intro hno
    rw [extractVideoID_eq, findId_none url.data (fun i => idAt_none_of_no_occurrence url.data i (hno i))]
  · rw [extractVideoID_eq]
    cases hf : findId url.data with
    | none => left; rfl
    | some id =>
      right
      obtain ⟨i, hi, _⟩ := findId_some _ _ hf
      exact (idAt_some _ _ hi).1
  · rw [extractVideoID_eq]
    cases hf : findId url.data with
    | none => intro c hc; cases hc
    | some id =>
      obtain ⟨i, hi, _⟩ := findId_some _ _ hf
      exact (idAt_some _ _ hi).2

end GoTube
